import Mathlib

/-!
Verification of the gift-exchange pairing generator (`generate.py`).

The Python source is shallowly embedded here:
* people are `(name, groupIndex)` pairs, mirroring `person = (name, i)`;
* the randomized draws of `random.choice` are modelled by an explicit oracle
  `Nat → Nat × Nat` supplying, for each loop iteration, an index into the
  current givers pool and an index into the current getters pool (taken modulo
  the pool length, so every possible draw of `random.choice` corresponds to
  some oracle and vice versa);
* the `while givers:` loop is modelled by a fuel-indexed recursion; the fuel
  supplied by the top-level entry point exceeds the maximal possible number of
  iterations (`maxAttempts + 1` failed draws plus one acceptance per person),
  so fuel exhaustion (which conservatively yields `none`) is unreachable;
* Python string operations are modelled at the ASCII level: `str.lower` maps
  `Char.toLower` over the characters, `str.strip` drops leading and trailing
  whitespace, `str.replace('"', '')` filters out double-quote characters,
  `'%d' % n` is decimal `toString`, and `sorted` on tuples is insertion sort
  by the lexicographic order on code points (Python compares strings by code
  point and tuples lexicographically);
* Python `set`s of pairings are modelled as duplicate-free lists (the code
  only inserts after an explicit membership check, so no duplicates arise),
  and `list.remove` is `List.erase` (both remove the first occurrence).
-/

/-- A person is identified by a name together with the index of their group,
mirroring `person = (name, i)` in `AttemptToGenPairings`. -/
abbrev Person : Type := String × Nat

/-- A pairing `(giver, getter)` means the giver gives a gift to the getter. -/
abbrev Pairing : Type := Person × Person

/-- Python `str.lower` (ASCII model): lowercase every character. -/
def lowerStr (s : String) : String := ⟨s.data.map Char.toLower⟩

/-- Drop leading and trailing whitespace from a character list. -/
def stripChars (l : List Char) : List Char :=
  ((l.dropWhile Char.isWhitespace).reverse.dropWhile Char.isWhitespace).reverse

/-- Python `str.strip()` (ASCII model): drop surrounding whitespace. -/
def stripStr (s : String) : String := ⟨stripChars s.data⟩

/-- The double-quote character, written via its code point. -/
def quoteChar : Char := Char.ofNat 34

/-- Python `str.replace('"', '')`: remove every double-quote character. -/
def removeQuotes (s : String) : String := ⟨s.data.filter (fun c => c ≠ quoteChar)⟩

/-- The name normalization performed inside `PairingToString`:
`name.lower().strip().replace('"', '')`. -/
def normalizeName (s : String) : String := removeQuotes (stripStr (lowerStr s))

/-- Embedding of `PairingToString`: `'%d%s-%d%s' % (giverGroup, giverName,
getterGroup, getterName)` after normalizing both names. -/
def PairingToString (p : Pairing) : String :=
  toString p.1.2 ++ normalizeName p.1.1 ++ "-" ++ toString p.2.2 ++ normalizeName p.2.1

/-- The list of people built from the groups, in program order: for each group
`i` and each name in it, the person `(name, i)`.  This is the initial content
of both the `givers` and the `getters` pool. -/
def personsOf (groups : List (List String)) : List Person :=
  (groups.enum.map (fun gi => gi.2.map (fun name => (name, gi.1)))).flatten

/-- One `random.choice(l)` draw: the oracle supplies an arbitrary natural
number, reduced modulo the pool size to an index.  The default value is never
used because the pools are non-empty whenever a draw happens. -/
def pick (l : List Person) (i : Nat) : Person := l.getD (i % l.length) ("", 0)

/-- The assignment loop of `AttemptToGenPairings` (`while givers:`).  Each
iteration either returns, rejects a draw (incrementing `attempts`), or accepts
a pairing and removes the two people from the pools.  `fuel` bounds the number
of iterations; the caller supplies enough fuel that exhaustion (modelled as
`none`) cannot happen before the loop returns on its own. -/
def attemptLoop (lastRun : List String) (m : Nat) (oracle : Nat → Nat × Nat) :
    Nat → Nat → List Person → List Person → List Pairing → Nat → Option (List Pairing)
  | 0, _, _, _, _, _ => none
  | fuel + 1, k, givers, getters, pairings, attempts =>
    if givers = [] then
      if getters = [] then some pairings else none
    else if attempts > m then
      none
    else
      let giver := pick givers (oracle k).1
      let getter := pick getters (oracle k).2
      if giver = getter then
        attemptLoop lastRun m oracle fuel (k + 1) givers getters pairings (attempts + 1)
      else if giver.2 = getter.2 then
        attemptLoop lastRun m oracle fuel (k + 1) givers getters pairings (attempts + 1)
      else if PairingToString (giver, getter) ∈ lastRun then
        attemptLoop lastRun m oracle fuel (k + 1) givers getters pairings (attempts + 1)
      else if (giver, getter) ∈ pairings ∨ (getter, giver) ∈ pairings then
        attemptLoop lastRun m oracle fuel (k + 1) givers getters pairings (attempts + 1)
      else
        attemptLoop lastRun m oracle fuel (k + 1) (givers.erase giver) (getters.erase getter)
          ((giver, getter) :: pairings) attempts

/-- Embedding of `AttemptToGenPairings(groups, lastRun, maxAttempts)`:
build the two pools and run the assignment loop.  The source's default
`maxAttempts=1000` is passed explicitly at call sites. -/
def AttemptToGenPairings (groups : List (List String)) (lastRun : List String)
    (oracle : Nat → Nat × Nat) (m : Nat) : Option (List Pairing) :=
  attemptLoop lastRun m oracle (m + (personsOf groups).length + 2) 0
    (personsOf groups) (personsOf groups) [] 0

/-- Variant of the assignment loop without the defensive leftover-getters
check: when the givers pool empties it returns the pairings unconditionally.
Used to state that the defensive branch of the source is unreachable. -/
def attemptLoopND (lastRun : List String) (m : Nat) (oracle : Nat → Nat × Nat) :
    Nat → Nat → List Person → List Person → List Pairing → Nat → Option (List Pairing)
  | 0, _, _, _, _, _ => none
  | fuel + 1, k, givers, getters, pairings, attempts =>
    if givers = [] then
      some pairings
    else if attempts > m then
      none
    else
      let giver := pick givers (oracle k).1
      let getter := pick getters (oracle k).2
      if giver = getter then
        attemptLoopND lastRun m oracle fuel (k + 1) givers getters pairings (attempts + 1)
      else if giver.2 = getter.2 then
        attemptLoopND lastRun m oracle fuel (k + 1) givers getters pairings (attempts + 1)
      else if PairingToString (giver, getter) ∈ lastRun then
        attemptLoopND lastRun m oracle fuel (k + 1) givers getters pairings (attempts + 1)
      else if (giver, getter) ∈ pairings ∨ (getter, giver) ∈ pairings then
        attemptLoopND lastRun m oracle fuel (k + 1) givers getters pairings (attempts + 1)
      else
        attemptLoopND lastRun m oracle fuel (k + 1) (givers.erase giver) (getters.erase getter)
          ((giver, getter) :: pairings) attempts

/-- `AttemptToGenPairings` with the defensive leftover-getters check removed. -/
def AttemptToGenPairingsND (groups : List (List String)) (lastRun : List String)
    (oracle : Nat → Nat × Nat) (m : Nat) : Option (List Pairing) :=
  attemptLoopND lastRun m oracle (m + (personsOf groups).length + 2) 0
    (personsOf groups) (personsOf groups) [] 0

/-- Embedding of `GenPairings`: retry `AttemptToGenPairings` (with the
default `maxAttempts = 1000`) until an attempt succeeds.  The unbounded
`while 1:` loop is modelled by a retry budget `tries`; the source loop
terminates exactly when some finite budget returns `some`.  `oseq` supplies
a fresh draw oracle for each attempt. -/
def GenPairings (groups : List (List String)) (lastRun : List String) :
    (Nat → Nat → Nat × Nat) → Nat → Option (List Pairing)
  | _, 0 => none
  | oseq, tries + 1 =>
    match AttemptToGenPairings groups lastRun (oseq 0) 1000 with
    | some ps => some ps
    | none => GenPairings groups lastRun (fun n => oseq (n + 1)) tries

/-- The loop body of `HaveDuplicateNames`: walk the flattened name list with
the set (modelled as a list) of normalized names seen so far. -/
def HaveDupAux : List String → List String → Bool
  | _, [] => false
  | known, n :: rest =>
    if stripStr (lowerStr n) ∈ known then true
    else HaveDupAux (stripStr (lowerStr n) :: known) rest

/-- Embedding of `HaveDuplicateNames`: is some `name.lower().strip()` shared
by two of the listed people? -/
def HaveDuplicateNames (groups : List (List String)) : Bool :=
  HaveDupAux [] groups.flatten

/-- Rank of a person for sorting: Python compares the `(name, group)` tuple
lexicographically, with strings compared by code points. -/
def rankPerson (a : Person) : Lex (List Nat × Nat) := toLex (a.1.data.map Char.toNat, a.2)

/-- Rank of a pairing for sorting: Python compares the `(giver, getter)`
tuple lexicographically. -/
def rankPairing (p : Pairing) : Lex (Lex (List Nat × Nat) × Lex (List Nat × Nat)) :=
  toLex (rankPerson p.1, rankPerson p.2)

/-- The canonical (Python `sorted`) order on pairings. -/
def pairingLe (p q : Pairing) : Prop := rankPairing p ≤ rankPairing q

instance : DecidableRel pairingLe :=
  fun p q => inferInstanceAs (Decidable (rankPairing p ≤ rankPairing q))

instance : IsTotal Pairing pairingLe :=
  ⟨fun p q => le_total (rankPairing p) (rankPairing q)⟩

instance : IsTrans Pairing pairingLe :=
  ⟨fun _ _ _ h1 h2 => le_trans h1 h2⟩

/-- Embedding of Python `sorted(pairings)`: the unique ordering of the
pairings by the lexicographic tuple order. -/
def sortedPairings (ps : List Pairing) : List Pairing := List.insertionSort pairingLe ps

/-- The `'%s gives to %s'` output line. -/
def plainLine (p : Pairing) : String := p.1.1 ++ " gives to " ++ p.2.1

/-- The `'%s (%d) gives to %s (%d)'` output line. -/
def groupLine (p : Pairing) : String :=
  p.1.1 ++ " (" ++ toString p.1.2 ++ ") gives to " ++ p.2.1 ++ " (" ++ toString p.2.2 ++ ")"

/-- Python `sep.join(parts)`. -/
def joinSep (sep : String) : List String → String
  | [] => ""
  | [x] => x
  | x :: y :: rest => x ++ sep ++ joinSep sep (y :: rest)

/-- The `printLines` list built by `FormatPairings`: one line per pairing in
sorted order, using the grouped form exactly when `HaveDuplicateNames(groups)`.
The source reads `groups` from the module globals; the embedding takes it as a
parameter. -/
def printLinesOf (groups : List (List String)) (ps : List Pairing) : List String :=
  (sortedPairings ps).map (fun p => if HaveDuplicateNames groups then groupLine p else plainLine p)

/-- The `lastRuns` list built by `FormatPairings`: the canonical key of each
pairing, in sorted order. -/
def lastRunsOf (ps : List Pairing) : List String :=
  (sortedPairings ps).map PairingToString

/-- Embedding of `FormatPairings`: the human-readable listing joined by
newlines, and the history string joined by the `'::'` delimiter. -/
def FormatPairings (groups : List (List String)) (ps : List Pairing) : String × String :=
  (joinSep "\n" (printLinesOf groups ps), joinSep "::" (lastRunsOf ps))

/-- Python `s.split('::')` on a character list: split on the leftmost
occurrence of two consecutive colons, repeatedly.  `acc` holds the characters
of the current field in reverse. -/
def splitCC : List Char → List Char → List (List Char)
  | acc, [] => [acc.reverse]
  | acc, ':' :: ':' :: rest2 => acc.reverse :: splitCC [] rest2
  | acc, c :: rest => splitCC (c :: acc) rest

/-- Embedding of the `lastRun` handling in `LoadGroups`: strip the string,
treat an empty result as no history, otherwise split on `'::'`. -/
def loadLastRun (s : String) : List String :=
  if stripStr s = "" then [] else (splitCC [] (stripStr s).data).map (fun cs => ⟨cs⟩)

/-- Character-level form of `'::'.join`: used to reason about the round trip
between `FormatPairings` and `loadLastRun`. -/
def joinKeys : List (List Char) → List Char
  | [] => []
  | [k] => k
  | k :: k2 :: rest => k ++ ':' :: ':' :: joinKeys (k2 :: rest)

/-- The constraints `AttemptToGenPairings` enforces on every accepted pairing:
no self-gift, no same-group pair, canonical key not in the history, and the
reverse pairing absent from the same set. -/
def PairProps (lastRun : List String) (pairings : List Pairing) : Prop :=
  ∀ p ∈ pairings,
    p.1 ≠ p.2 ∧ p.1.2 ≠ p.2.2 ∧ PairingToString p ∉ lastRun ∧ (p.2, p.1) ∉ pairings

instance (lastRun : List String) (pairings : List Pairing) :
    Decidable (PairProps lastRun pairings) :=
  List.decidableBAll _ pairings

/-- Invariants 1–6 of a valid MatchSet over the given people and history:
right size, every person exactly once as giver and as getter (as multisets),
no duplicate pairing, and the per-pairing constraints. -/
def MatchSetValid (persons : List Person) (lastRun : List String) (ps : List Pairing) : Prop :=
  ps.length = persons.length ∧ (ps.map Prod.fst).Perm persons ∧
    (ps.map Prod.snd).Perm persons ∧ ps.Nodup ∧ PairProps lastRun ps

/-- Key format that claim C8 literally describes (spec wording): group index,
then the name lowercased with double quotes removed — with no whitespace
stripping. -/
def specKeyNoTrim (p : Pairing) : String :=
  toString p.1.2 ++ removeQuotes (lowerStr p.1.1) ++ "-" ++
    toString p.2.2 ++ removeQuotes (lowerStr p.2.1)

/-- Key format of claim C8 as amended: group index, then the name lowercased,
stripped of surrounding whitespace, with double quotes removed. -/
def specKeyTrimmed (p : Pairing) : String :=
  toString p.1.2 ++ removeQuotes (stripStr (lowerStr p.1.1)) ++ "-" ++
    toString p.2.2 ++ removeQuotes (stripStr (lowerStr p.2.1))

/-- Spec wording of claim C9: two listed people share a case-insensitive name
(lowercasing only, no whitespace stripping). -/
def specSharesCaseInsensitiveName (groups : List (List String)) : Prop :=
  ¬ (groups.flatten.map lowerStr).Nodup

instance (groups : List (List String)) : Decidable (specSharesCaseInsensitiveName groups) := by
  unfold specSharesCaseInsensitiveName; infer_instance

/-- Claim C9 as amended: two listed people share a name after lowercasing and
stripping surrounding whitespace — the normalization the code applies. -/
def specSharesNormalizedName (groups : List (List String)) : Prop :=
  ¬ (groups.flatten.map (fun n => stripStr (lowerStr n))).Nodup

instance (groups : List (List String)) : Decidable (specSharesNormalizedName groups) := by
  unfold specSharesNormalizedName; infer_instance

/-- Concrete feasible input: two groups of two. -/
def groupsFour : List (List String) := [["Alice", "Bob"], ["Carol", "Dave"]]

/-- A draw oracle completing an attempt on `groupsFour` in four acceptances. -/
def oracleFour : Nat → Nat × Nat := fun k => [(0, 2), (0, 2), (0, 1), (0, 0)].getD k (0, 0)

/-- The pairing set produced by `oracleFour` on `groupsFour`. -/
def psFour : List Pairing :=
  [(("Dave", 1), ("Alice", 0)), (("Carol", 1), ("Bob", 0)),
   (("Bob", 0), ("Dave", 1)), (("Alice", 0), ("Carol", 1))]

/-- Groups listing the same person `("A", 0)` twice. -/
def groupsDup : List (List String) := [["A", "A", "X", "Y"], ["B", "C", "D", "E"]]

/-- A draw oracle completing an attempt on `groupsDup` in eight acceptances. -/
def oracleDup : Nat → Nat × Nat :=
  fun k => [(0, 4), (0, 4), (0, 4), (0, 4), (0, 2), (0, 2), (0, 0), (0, 0)].getD k (0, 0)

/-- The pairing set produced by `oracleDup` on `groupsDup`: the duplicated
person `("A", 0)` gives twice. -/
def psDup : List Pairing :=
  [(("E", 1), ("A", 0)), (("D", 1), ("A", 0)), (("C", 1), ("Y", 0)), (("B", 1), ("X", 0)),
   (("Y", 0), ("E", 1)), (("X", 0), ("D", 1)), (("A", 0), ("C", 1)), (("A", 0), ("B", 1))]

/-- The infeasible input of claim C3: one group holds three of the four people,
so no valid pairing set exists. -/
def groupsSkew : List (List String) := [["a", "b", "c"], ["d"]]

theorem pick_mem {l : List Person} (i : Nat) (h : l ≠ []) : pick l i ∈ l := by
  have hlen : 0 < l.length := List.length_pos.mpr h
  have hlt : i % l.length < l.length := Nat.mod_lt _ hlen
  unfold pick
  rw [List.getD_eq_getElem?_getD, List.getElem?_eq_getElem hlt]
  exact List.getElem_mem hlt

theorem erase_beq_eq (l : List Person) (x : Person) :
    l.erase x = @List.erase Person instBEqOfDecidableEq l x := by
  induction l with
  | nil => rfl
  | cons a as ih =>
    simp only [List.erase_cons, ih]
    by_cases h : a = x <;> simp [h, instBEqOfDecidableEq]

theorem perm_accept {persons pool l : List Person} {x : Person}
    (hmem : x ∈ pool) (h : persons.Perm (l ++ pool)) :
    persons.Perm ((x :: l) ++ pool.erase x) := by
  have h3 : pool.Perm (x :: pool.erase x) := by
    rw [erase_beq_eq]
    exact List.perm_cons_erase hmem
  have h2 := h.trans ((List.Perm.append_left l h3).trans List.perm_middle)
  simpa using h2

theorem pairProps_accept {lastRun : List String} {pairings : List Pairing} {g r : Person}
    (hpp : PairProps lastRun pairings) (hne : g ≠ r) (hgrp : g.2 ≠ r.2)
    (hkey : PairingToString (g, r) ∉ lastRun) (hfwd : (g, r) ∉ pairings)
    (hrev : (r, g) ∉ pairings) : PairProps lastRun ((g, r) :: pairings) := by
  rintro ⟨a, b⟩ hp
  rcases List.mem_cons.mp hp with h | h
  · rw [Prod.mk.injEq] at h
    obtain ⟨ha, hb⟩ := h
    subst ha
    subst hb
    refine ⟨hne, hgrp, hkey, ?_⟩
    intro hc
    rcases List.mem_cons.mp hc with h2 | h2
    · rw [Prod.mk.injEq] at h2
      exact hne h2.1.symm
    · exact hrev h2
  · obtain ⟨h1, h2, h3, h4⟩ := hpp (a, b) h
    refine ⟨h1, h2, h3, ?_⟩
    intro hc
    rcases List.mem_cons.mp hc with h5 | h5
    · rw [Prod.mk.injEq] at h5
      obtain ⟨hb, ha⟩ := h5
      subst hb
      subst ha
      exact hrev h
    · exact h4 h5

theorem attemptLoop_sound (lastRun : List String) (m : Nat) (oracle : Nat → Nat × Nat)
    (persons : List Person) (fuel : Nat) :
    ∀ k givers getters pairings attempts ps,
      persons.Perm (pairings.map Prod.fst ++ givers) →
      persons.Perm (pairings.map Prod.snd ++ getters) →
      pairings.Nodup → PairProps lastRun pairings →
      attemptLoop lastRun m oracle fuel k givers getters pairings attempts = some ps →
      ps.Nodup ∧ persons.Perm (ps.map Prod.fst) ∧ persons.Perm (ps.map Prod.snd) ∧
        PairProps lastRun ps := by
  induction fuel with
  | zero =>
    intro k givers getters pairings attempts ps _ _ _ _ hrun
    simp [attemptLoop] at hrun
  | succ n ih =>
    intro k givers getters pairings attempts ps hfst hsnd hnd hpp hrun
    simp only [attemptLoop] at hrun
    set g := pick givers (oracle k).1 with hgdef
    set r := pick getters (oracle k).2 with hrdef
    split at hrun
    case isTrue hg =>
      split at hrun
      case isTrue hget =>
        cases hrun
        subst hg
        subst hget
        simp only [List.append_nil] at hfst hsnd
        exact ⟨hnd, hfst, hsnd, hpp⟩
      case isFalse hget => simp at hrun
    case isFalse hg =>
      split at hrun
      case isTrue ha => simp at hrun
      case isFalse ha =>
        have hgmem : g ∈ givers := pick_mem _ hg
        have hlen : givers.length = getters.length := by
          have e1 := hfst.length_eq
          have e2 := hsnd.length_eq
          simp only [List.length_append, List.length_map] at e1 e2
          omega
        have hget : getters ≠ [] := by
          intro hempty
          rw [hempty] at hlen
          simp only [List.length_nil, List.length_eq_zero] at hlen
          exact hg hlen
        have hrmem : r ∈ getters := pick_mem _ hget
        split at hrun
        case isTrue heq => exact ih _ _ _ _ _ _ hfst hsnd hnd hpp hrun
        case isFalse hne =>
          split at hrun
          case isTrue hgrp => exact ih _ _ _ _ _ _ hfst hsnd hnd hpp hrun
          case isFalse hgrp =>
            split at hrun
            case isTrue hkey => exact ih _ _ _ _ _ _ hfst hsnd hnd hpp hrun
            case isFalse hkey =>
              split at hrun
              case isTrue hmem => exact ih _ _ _ _ _ _ hfst hsnd hnd hpp hrun
              case isFalse hmem =>
                push_neg at hmem
                obtain ⟨hfwd, hrev⟩ := hmem
                exact ih _ _ _ _ _ _ (perm_accept hgmem hfst) (perm_accept hrmem hsnd)
                  (List.nodup_cons.mpr ⟨hfwd, hnd⟩)
                  (pairProps_accept hpp hne hgrp hkey hfwd hrev) hrun

theorem attempt_sound {groups : List (List String)} {lastRun : List String}
    {oracle : Nat → Nat × Nat} {m : Nat} {ps : List Pairing}
    (h : AttemptToGenPairings groups lastRun oracle m = some ps) :
    MatchSetValid (personsOf groups) lastRun ps := by
  have hmain := attemptLoop_sound lastRun m oracle (personsOf groups)
    (m + (personsOf groups).length + 2) 0 (personsOf groups) (personsOf groups) [] 0 ps
    (by simp) (by simp) (by simp) (by intro p hp; simp at hp) h
  obtain ⟨hnd, h1, h2, hpp⟩ := hmain
  refine ⟨?_, h1.symm, h2.symm, hnd, hpp⟩
  have := h1.length_eq
  simpa using this.symm

theorem length_erase_person {l : List Person} {x : Person} (h : x ∈ l) :
    (l.erase x).length = l.length - 1 :=
  List.length_erase_of_mem h

theorem attemptLoop_eq_ND (lastRun : List String) (m : Nat) (oracle : Nat → Nat × Nat)
    (fuel : Nat) :
    ∀ k givers getters pairings attempts, givers.length = getters.length →
      attemptLoop lastRun m oracle fuel k givers getters pairings attempts =
        attemptLoopND lastRun m oracle fuel k givers getters pairings attempts := by
  induction fuel with
  | zero => intro k givers getters pairings attempts _; rfl
  | succ n ih =>
    intro k givers getters pairings attempts hlen
    simp only [attemptLoop, attemptLoopND]
    by_cases hg : givers = []
    · have hget : getters = [] := by
        rw [hg] at hlen
        simpa [List.length_eq_zero] using hlen.symm
      rw [if_pos hg, if_pos hg, if_pos hget]
    · rw [if_neg hg, if_neg hg]
      by_cases ha : attempts > m
      · rw [if_pos ha, if_pos ha]
      · rw [if_neg ha, if_neg ha]
        have hgmem : pick givers (oracle k).1 ∈ givers := pick_mem _ hg
        have hget : getters ≠ [] := by
          intro hempty
          rw [hempty] at hlen
          simp only [List.length_nil, List.length_eq_zero] at hlen
          exact hg hlen
        have hrmem : pick getters (oracle k).2 ∈ getters := pick_mem _ hget
        have hlen2 : (givers.erase (pick givers (oracle k).1)).length =
            (getters.erase (pick getters (oracle k).2)).length := by
          rw [length_erase_person hgmem, length_erase_person hrmem, hlen]
        by_cases h1 : pick givers (oracle k).1 = pick getters (oracle k).2
        · rw [if_pos h1, if_pos h1]
          exact ih _ _ _ _ _ hlen
        · rw [if_neg h1, if_neg h1]
          by_cases h2 : (pick givers (oracle k).1).2 = (pick getters (oracle k).2).2
          · rw [if_pos h2, if_pos h2]
            exact ih _ _ _ _ _ hlen
          · rw [if_neg h2, if_neg h2]
            by_cases h3 : PairingToString (pick givers (oracle k).1, pick getters (oracle k).2)
                ∈ lastRun
            · rw [if_pos h3, if_pos h3]
              exact ih _ _ _ _ _ hlen
            · rw [if_neg h3, if_neg h3]
              by_cases h4 : (pick givers (oracle k).1, pick getters (oracle k).2) ∈ pairings ∨
                  (pick getters (oracle k).2, pick givers (oracle k).1) ∈ pairings
              · rw [if_pos h4, if_pos h4]
                exact ih _ _ _ _ _ hlen
              · rw [if_neg h4, if_neg h4]
                exact ih _ _ _ _ _ hlen2

theorem genPairings_some (groups : List (List String)) (lastRun : List String) :
    ∀ tries oseq ps, GenPairings groups lastRun oseq tries = some ps →
      ∃ n, AttemptToGenPairings groups lastRun (oseq n) 1000 = some ps := by
  intro tries
  induction tries with
  | zero => intro oseq ps h; simp [GenPairings] at h
  | succ n ih =>
    intro oseq ps h
    simp only [GenPairings] at h
    cases hA : AttemptToGenPairings groups lastRun (oseq 0) 1000 with
    | some q =>
      rw [hA] at h
      exact ⟨0, hA.trans h⟩
    | none =>
      rw [hA] at h
      obtain ⟨n2, hn⟩ := ih _ _ h
      exact ⟨n2 + 1, hn⟩

theorem haveDupAux_iff (names : List String) :
    ∀ known, HaveDupAux known names = true ↔
      ((∃ x ∈ names.map (fun n => stripStr (lowerStr n)), x ∈ known) ∨
        ¬ (names.map (fun n => stripStr (lowerStr n))).Nodup) := by
  induction names with
  | nil => intro known; simp [HaveDupAux]
  | cons n rest ih =>
    intro known
    simp only [HaveDupAux, List.map_cons]
    by_cases h : stripStr (lowerStr n) ∈ known
    · rw [if_pos h]
      constructor
      · intro _
        exact Or.inl ⟨stripStr (lowerStr n), List.mem_cons_self _ _, h⟩
      · intro _
        rfl
    · rw [if_neg h, ih (stripStr (lowerStr n) :: known)]
      constructor
      · rintro (⟨x, hx, hxk⟩ | hnd)
        · rcases List.mem_cons.mp hxk with rfl | hxk2
          · refine Or.inr ?_
            rw [List.nodup_cons]
            rintro ⟨hvn, _⟩
            exact hvn hx
          · exact Or.inl ⟨x, List.mem_cons_of_mem _ hx, hxk2⟩
        · refine Or.inr ?_
          rw [List.nodup_cons]
          rintro ⟨_, hnd2⟩
          exact hnd hnd2
      · rintro (⟨x, hx, hxk⟩ | hnd)
        · rcases List.mem_cons.mp hx with rfl | hx2
          · exact absurd hxk h
          · exact Or.inl ⟨x, hx2, List.mem_cons_of_mem _ hxk⟩
        · rw [List.nodup_cons, not_and_or, not_not] at hnd
          rcases hnd with hv | hnd2
          · exact Or.inl ⟨stripStr (lowerStr n), hv, List.mem_cons_self _ _⟩
          · exact Or.inr hnd2

theorem haveDuplicateNames_iff (groups : List (List String)) :
    HaveDuplicateNames groups = true ↔ specSharesNormalizedName groups := by
  unfold HaveDuplicateNames specSharesNormalizedName
  rw [haveDupAux_iff]
  simp

theorem splitCC_nil (acc : List Char) : splitCC acc [] = [acc.reverse] := rfl

theorem splitCC_colon2 (acc rest : List Char) :
    splitCC acc (':' :: ':' :: rest) = acc.reverse :: splitCC [] rest := rfl

theorem splitCC_nonColon {c : Char} (h : c ≠ ':') (acc rest : List Char) :
    splitCC acc (c :: rest) = splitCC (c :: acc) rest := by
  rw [splitCC.eq_def]
  split
  · simp_all
  · rename_i rest2 heq
    exfalso
    injection heq with h1 h2
    exact h h1
  · rename_i c2 rest2 hno heq
    injection heq with h1 h2
    subst h1
    subst h2
    rfl

theorem splitCC_append {k : List Char} (hk : ':' ∉ k) :
    ∀ acc tail, splitCC acc (k ++ tail) = splitCC (k.reverse ++ acc) tail := by
  induction k with
  | nil => intro acc tail; simp
  | cons c rest ih =>
    intro acc tail
    have hc : c ≠ ':' := fun hcc => hk (hcc ▸ List.mem_cons_self c rest)
    have hk2 : ':' ∉ rest := fun hr => hk (List.mem_cons_of_mem _ hr)
    rw [List.cons_append, splitCC_nonColon hc, ih hk2]
    simp

theorem splitCC_joinKeys : ∀ keys : List (List Char), keys ≠ [] →
    (∀ k ∈ keys, ':' ∉ k) → splitCC [] (joinKeys keys) = keys := by
  intro keys
  induction keys with
  | nil => intro h; exact absurd rfl h
  | cons k rest ih =>
    intro _ hcol
    cases rest with
    | nil =>
      have hk : ':' ∉ k := hcol k (List.mem_cons_self _ _)
      have h2 : joinKeys [k] = k ++ [] := by simp [joinKeys]
      rw [h2, splitCC_append hk, splitCC_nil]
      simp
    | cons k2 rest2 =>
      have hk : ':' ∉ k := hcol k (List.mem_cons_self _ _)
      rw [joinKeys, splitCC_append hk, splitCC_colon2]
      simp only [List.append_nil, List.reverse_reverse]
      rw [ih (by simp) (fun x hx => hcol x (List.mem_cons_of_mem _ hx))]

theorem joinSep_data : ∀ l : List String, (joinSep "::" l).data = joinKeys (l.map String.data) := by
  intro l
  induction l with
  | nil => rfl
  | cons x xs ih =>
    cases xs with
    | nil => rfl
    | cons y rest =>
      show (x ++ "::" ++ joinSep "::" (y :: rest)).data = _
      rw [String.data_append, String.data_append, ih]
      have hcc : ("::" : String).data = [':', ':'] := rfl
      rw [hcc]
      show _ = joinKeys (x.data :: (y :: rest).map String.data)
      have hjk : joinKeys (x.data :: (y :: rest).map String.data) =
          x.data ++ ':' :: ':' :: joinKeys ((y :: rest).map String.data) := rfl
      rw [hjk]
      simp

theorem joinKeys_ne_nil {d : List Char} {ds : List (List Char)} (hd : d ≠ []) :
    joinKeys (d :: ds) ≠ [] := by
  cases ds with
  | nil => simpa [joinKeys] using hd
  | cons d2 rest =>
    rw [joinKeys]
    simp [hd]

theorem string_mk_data (s : String) : (⟨s.data⟩ : String) = s := by
  cases s
  rfl

theorem loadLastRun_joinSep (keys : List String)
    (hcol : ∀ k ∈ keys, ':' ∉ k.data) (hne : ∀ k ∈ keys, k ≠ "")
    (hstrip : stripStr (joinSep "::" keys) = joinSep "::" keys) :
    loadLastRun (joinSep "::" keys) = keys := by
  cases keys with
  | nil => rfl
  | cons k rest =>
    unfold loadLastRun
    rw [hstrip]
    have hkd : k.data ≠ [] := by
      intro hempty
      apply hne k (List.mem_cons_self _ _)
      calc k = ⟨k.data⟩ := (string_mk_data k).symm
        _ = "" := by rw [hempty]
    have hjne : joinSep "::" (k :: rest) ≠ "" := by
      intro hj
      have hdata := congrArg String.data hj
      rw [joinSep_data] at hdata
      exact joinKeys_ne_nil hkd (by simpa using hdata)
    rw [if_neg hjne, joinSep_data,
      splitCC_joinKeys _ (by simp) (by
        intro x hx
        obtain ⟨s, hs, hsx⟩ := List.mem_map.mp hx
        exact hsx ▸ hcol s hs)]
    rw [List.map_map]
    have hid : ∀ s : String, ((fun cs => (⟨cs⟩ : String)) ∘ String.data) s = id s :=
      fun s => string_mk_data s
    rw [List.map_congr_left (fun s _ => hid s), List.map_id]

theorem stripChars_cons_space (l : List Char) : stripChars (' ' :: l) = stripChars l := by
  have hws : Char.isWhitespace ' ' = true := by decide
  simp [stripChars, List.dropWhile_cons, hws]

theorem stripChars_append_space (l : List Char) : stripChars (l ++ [' ']) = stripChars l := by
  have hws : Char.isWhitespace ' ' = true := by decide
  by_cases h : l.dropWhile Char.isWhitespace = []
  · simp [stripChars, List.dropWhile_append, h, hws]
  · simp only [stripChars, List.dropWhile_append, h, hws]
    rw [if_neg (by simpa [List.isEmpty_iff] using h)]
    simp [List.reverse_append, List.dropWhile_cons, hws]

theorem normalizeName_pad (s : String) : normalizeName (" " ++ s ++ " ") = normalizeName s := by
  have hdata : (" " ++ s ++ " ").data = ' ' :: s.data ++ [' '] := by
    rw [String.data_append, String.data_append]
    rfl
  have hlist : stripChars ((" " ++ s ++ " ").data.map Char.toLower) =
      stripChars (s.data.map Char.toLower) := by
    rw [hdata]
    have hmap : (' ' :: s.data ++ [' ']).map Char.toLower =
        ' ' :: s.data.map Char.toLower ++ [' '] := by
      simp
    rw [hmap, List.cons_append, stripChars_cons_space, stripChars_append_space]
  exact congrArg removeQuotes (congrArg String.mk hlist)

theorem count_person_eq (l : List Person) (a : Person) :
    l.count a = @List.count Person instBEqOfDecidableEq a l := by
  induction l with
  | nil => rfl
  | cons x xs ih =>
    simp only [List.count_cons, ih]
    by_cases h : x = a <;> simp [h, instBEqOfDecidableEq]

/-- Claim C1 (amended): whenever `AttemptToGenPairings` returns a non-`none`
set, the multiset of givers and the multiset of getters each equal the
multiset of people built from the groups, and the set's size equals the total
person count; in particular, when the listed people are pairwise distinct,
every person appears exactly once as a giver and exactly once as a getter. -/
theorem claim_C1_theorem (groups : List (List String)) (lastRun : List String)
    (oracle : Nat → Nat × Nat) (m : Nat) (ps : List Pairing)
    (h : AttemptToGenPairings groups lastRun oracle m = some ps) :
    ps.length = (personsOf groups).length ∧
      (ps.map Prod.fst).Perm (personsOf groups) ∧
      (ps.map Prod.snd).Perm (personsOf groups) ∧
      ((personsOf groups).Nodup → ∀ q ∈ personsOf groups,
        (ps.map Prod.fst).count q = 1 ∧ (ps.map Prod.snd).count q = 1) := by
  obtain ⟨hlen, h1, h2, hnd, hpp⟩ := attempt_sound h
  refine ⟨hlen, h1, h2, ?_⟩
  intro hpnd q hq
  constructor
  · rw [count_person_eq, h1.count_eq]
    exact List.count_eq_one_of_mem hpnd hq
  · rw [count_person_eq, h2.count_eq]
    exact List.count_eq_one_of_mem hpnd hq

theorem claim_C1_witness :
    AttemptToGenPairings groupsFour [] oracleFour 1000 = some psFour ∧
      psFour.length = (personsOf groupsFour).length :=
  ⟨by decide, (claim_C1_theorem groupsFour [] oracleFour 1000 psFour (by decide)).1⟩

/-- Claim C1 as stated is false: with the person `("A", 0)` listed twice in its
group, a complete attempt can return a set in which that person appears twice
as a giver, not exactly once. -/
theorem claim_C1_counterexample :
    AttemptToGenPairings groupsDup [] oracleDup 1000 = some psDup ∧
      ("A", 0) ∈ personsOf groupsDup ∧ (psDup.map Prod.fst).count ("A", 0) = 2 :=
  ⟨by decide, by decide, by decide⟩

/-- Claim C2: every pairing in a non-`none` set returned by
`AttemptToGenPairings` has giver ≠ getter, giver's group ≠ getter's group,
canonical key not in the history, and its reverse absent from the set. -/
theorem claim_C2_theorem (groups : List (List String)) (lastRun : List String)
    (oracle : Nat → Nat × Nat) (m : Nat) (ps : List Pairing)
    (h : AttemptToGenPairings groups lastRun oracle m = some ps) :
    ∀ p ∈ ps, p.1 ≠ p.2 ∧ p.1.2 ≠ p.2.2 ∧ PairingToString p ∉ lastRun ∧ (p.2, p.1) ∉ ps :=
  (attempt_sound h).2.2.2.2

theorem claim_C2_witness :
    AttemptToGenPairings groupsFour [] oracleFour 1000 = some psFour ∧
      ((("Dave", 1), ("Alice", 0)) : Pairing).1 ≠ ((("Dave", 1), ("Alice", 0)) : Pairing).2 ∧
      PairingToString ((("Dave", 1), ("Alice", 0)) : Pairing) ∉ ([] : List String) := by
  have h := claim_C2_theorem groupsFour [] oracleFour 1000 psFour (by decide)
    ((("Dave", 1), ("Alice", 0)) : Pairing) (by decide)
  exact ⟨by decide, h.1, h.2.2.1⟩

/-- Claim C3 (amended): the stated input conditions do not guarantee a valid
matching exists, so `GenPairings` need not terminate; what holds is that some
feasible inputs meeting the conditions admit a terminating draw sequence, and
every value `GenPairings` ever returns satisfies invariants 1–6. -/
theorem claim_C3_theorem :
    (∃ oseq tries ps, GenPairings groupsFour [] oseq tries = some ps) ∧
      (∀ groups lastRun oseq tries ps, GenPairings groups lastRun oseq tries = some ps →
        MatchSetValid (personsOf groups) lastRun ps) := by
  constructor
  · exact ⟨fun _ => oracleFour, 1, psFour, by decide⟩
  · intro groups lastRun oseq tries ps h
    obtain ⟨n, hA⟩ := genPairings_some groups lastRun tries oseq ps h
    exact attempt_sound hA

theorem claim_C3_witness :
    GenPairings groupsFour [] (fun _ => oracleFour) 1 = some psFour ∧
      psFour.length = (personsOf groupsFour).length :=
  ⟨by decide, (claim_C3_theorem.2 groupsFour [] (fun _ => oracleFour) 1 psFour (by decide)).1⟩

/-- Claim C3 as stated is false: `groupsSkew = [["a","b","c"],["d"]]` meets the
conditions (two groups, each non-empty, four people) with empty history, yet
one group holds three of the four people, so no attempt can ever complete and
`GenPairings` never returns for any draw sequence and any retry budget. -/
theorem claim_C3_counterexample :
    (2 ≤ groupsSkew.length ∧ (∀ g ∈ groupsSkew, g ≠ []) ∧
      4 ≤ (personsOf groupsSkew).length) ∧
    ¬ ∃ oseq tries ps, GenPairings groupsSkew [] oseq tries = some ps := by
  constructor
  · exact ⟨by decide, by decide, by decide⟩
  · rintro ⟨oseq, tries, ps, h⟩
    obtain ⟨n, hA⟩ := genPairings_some groupsSkew [] tries oseq ps h
    obtain ⟨hlen, h1, h2, hnd, hpp⟩ := attempt_sound hA
    have hpersons : personsOf groupsSkew = [("a", 0), ("b", 0), ("c", 0), ("d", 1)] := by decide
    have key : ∀ a ∈ ps, (fun q : Pairing => q.1.2 == 0) a = true →
        (fun q : Pairing => q.2.2 == 1) a = true := by
      intro p hp hg
      have hsnd : p.2 ∈ personsOf groupsSkew :=
        h2.mem_iff.mp (List.mem_map_of_mem Prod.snd hp)
      rw [hpersons] at hsnd
      simp only [List.mem_cons, List.not_mem_nil, or_false] at hsnd
      have hcases : p.2.2 = 0 ∨ p.2.2 = 1 := by
        rcases hsnd with h | h | h | h <;> rw [h] <;> simp
      have hneq := (hpp p hp).2.1
      have hg2 : p.1.2 = 0 := by simpa using hg
      simp only [beq_iff_eq]
      rcases hcases with h0 | h1c
      · exact absurd (hg2.trans h0.symm) hneq
      · exact h1c
    have c1 : ps.countP (fun q : Pairing => q.1.2 == 0) = 3 := by
      have e := h1.countP_eq (fun x : Person => x.2 == 0)
      rw [List.countP_map] at e
      have e2 : (personsOf groupsSkew).countP (fun x : Person => x.2 == 0) = 3 := by decide
      rw [e2] at e
      simpa [Function.comp] using e
    have c2 : ps.countP (fun q : Pairing => q.2.2 == 1) = 1 := by
      have e := h2.countP_eq (fun x : Person => x.2 == 1)
      rw [List.countP_map] at e
      have e2 : (personsOf groupsSkew).countP (fun x : Person => x.2 == 1) = 1 := by decide
      rw [e2] at e
      simpa [Function.comp] using e
    have hle := List.countP_mono_left key
    rw [c1, c2] at hle
    omega

/-- Claim C4: on `[["Alice"], ["Bob"]]` with history `["0alice-1bob"]`, every
single attempt fails — `AttemptToGenPairings` returns `none` for every draw
oracle and every attempt bound. -/
theorem claim_C4_theorem (oracle : Nat → Nat × Nat) (m : Nat) :
    AttemptToGenPairings [["Alice"], ["Bob"]] ["0alice-1bob"] oracle m = none := by
  cases hA : AttemptToGenPairings [["Alice"], ["Bob"]] ["0alice-1bob"] oracle m with
  | none => rfl
  | some ps =>
    exfalso
    obtain ⟨hlen, h1, h2, hnd, hpp⟩ := attempt_sound hA
    have hmemA : (("Alice", 0) : Person) ∈ ps.map Prod.fst := by
      rw [h1.mem_iff]
      decide
    obtain ⟨p, hp, hpA⟩ := List.mem_map.mp hmemA
    have hsnd : p.2 ∈ personsOf [["Alice"], ["Bob"]] :=
      h2.mem_iff.mp (List.mem_map_of_mem Prod.snd hp)
    have hpersons : personsOf [["Alice"], ["Bob"]] = [("Alice", 0), ("Bob", 1)] := by decide
    rw [hpersons] at hsnd
    simp only [List.mem_cons, List.not_mem_nil, or_false] at hsnd
    obtain ⟨hne, hgrp, hkey, hrev⟩ := hpp p hp
    rcases hsnd with hB | hB
    · apply hne
      rw [hpA, hB]
    · apply hkey
      have hpfull : p = (("Alice", 0), ("Bob", 1)) := by
        obtain ⟨x, y⟩ := p
        simp only at hpA hB
        rw [hpA, hB]
      rw [hpfull]
      decide

/-- Claim C5: if the failed-attempt counter exceeds the bound while the givers
pool is non-empty, the attempt returns `none`; and a non-`none` result is never
partial — its size is the total person count. -/
theorem claim_C5_theorem :
    (∀ lastRun m oracle fuel k givers getters pairings attempts,
        givers ≠ ([] : List Person) → attempts > m →
        attemptLoop lastRun m oracle (fuel + 1) k givers getters pairings attempts = none) ∧
      (∀ groups lastRun oracle m ps, AttemptToGenPairings groups lastRun oracle m = some ps →
        ps.length = (personsOf groups).length) := by
  constructor
  · intro lastRun m oracle fuel k givers getters pairings attempts hg ha
    simp only [attemptLoop]
    rw [if_neg hg, if_pos ha]
  · intro groups lastRun oracle m ps h
    exact (attempt_sound h).1

theorem claim_C5_witness :
    ([("Alice", 0)] : List Person) ≠ [] ∧ 1001 > 1000 ∧
      attemptLoop [] 1000 oracleFour 1 0 [("Alice", 0)] [("Bob", 1)] [] 1001 = none :=
  ⟨by decide, by decide,
    claim_C5_theorem.1 [] 1000 oracleFour 0 0 [("Alice", 0)] [("Bob", 1)] [] 1001
      (by decide) (by decide)⟩

/-- Claim C6: the defensive leftover-getters branch is unreachable — because
both pools start with the same people and shrink in lockstep,
`AttemptToGenPairings` behaves identically to the variant with that branch
removed, for every input, oracle and bound. -/
theorem claim_C6_theorem (groups : List (List String)) (lastRun : List String)
    (oracle : Nat → Nat × Nat) (m : Nat) :
    AttemptToGenPairings groups lastRun oracle m =
      AttemptToGenPairingsND groups lastRun oracle m := by
  unfold AttemptToGenPairings AttemptToGenPairingsND
  exact attemptLoop_eq_ND lastRun m oracle _ 0 _ _ [] 0 rfl

/-- Claim C7 (amended): for pairing sets whose canonical keys contain no colon
character and are non-empty, and whose encoded history string is unchanged by
whitespace stripping, splitting the `lastRun` string produced by
`FormatPairings` as `LoadGroups` does recovers exactly the list of canonical
keys, hence exactly the set of keys of the pairings. -/
theorem claim_C7_theorem (groups : List (List String)) (ps : List Pairing)
    (hk : ∀ k ∈ lastRunsOf ps, ':' ∉ k.data ∧ k ≠ "")
    (hstrip : stripStr (FormatPairings groups ps).2 = (FormatPairings groups ps).2) :
    loadLastRun (FormatPairings groups ps).2 = lastRunsOf ps ∧
      ∀ s, s ∈ loadLastRun (FormatPairings groups ps).2 ↔ ∃ p ∈ ps, PairingToString p = s := by
  have h1 : loadLastRun (FormatPairings groups ps).2 = lastRunsOf ps :=
    loadLastRun_joinSep (lastRunsOf ps) (fun k hkk => (hk k hkk).1)
      (fun k hkk => (hk k hkk).2) hstrip
  refine ⟨h1, ?_⟩
  intro s
  rw [h1]
  unfold lastRunsOf sortedPairings
  constructor
  · intro hs
    obtain ⟨p, hp, hps⟩ := List.mem_map.mp hs
    exact ⟨p, (List.perm_insertionSort pairingLe ps).mem_iff.mp hp, hps⟩
  · rintro ⟨p, hp, hps⟩
    exact List.mem_map.mpr ⟨p, (List.perm_insertionSort pairingLe ps).mem_iff.mpr hp, hps⟩

theorem claim_C7_witness :
    stripStr (FormatPairings [] [((("Alice", 0) : Person), ("Bob", 1))]).2 =
        (FormatPairings [] [((("Alice", 0) : Person), ("Bob", 1))]).2 ∧
      loadLastRun (FormatPairings [] [((("Alice", 0) : Person), ("Bob", 1))]).2 =
        lastRunsOf [((("Alice", 0) : Person), ("Bob", 1))] :=
  ⟨by decide,
    (claim_C7_theorem [] [((("Alice", 0) : Person), ("Bob", 1))] (by decide) (by decide)).1⟩

/-- Claim C7 as stated is false: a name containing `::` makes the canonical
key contain the delimiter, so splitting the encoded string yields fragments
(here `"0a"`) that are not canonical keys of the set. -/
theorem claim_C7_counterexample :
    "0a" ∈ loadLastRun (FormatPairings [] [((("a::b", 0) : Person), ("c", 1))]).2 ∧
      "0a" ∉ List.map PairingToString [((("a::b", 0) : Person), ("c", 1))] ∧
      List.map PairingToString [((("a::b", 0) : Person), ("c", 1))] = ["0a::b-1c"] :=
  ⟨by decide, by decide, by decide⟩

/-- Claim C8 (amended): `PairingToString` returns the giver's group index,
then the giver's name lowercased, stripped of surrounding whitespace and with
double quotes removed, a hyphen, then the same for the getter. -/
theorem claim_C8_theorem (p : Pairing) : PairingToString p = specKeyTrimmed p := rfl

/-- Claim C8 as stated is false: the claimed format omits the whitespace
stripping the code performs, so they disagree on a name with a trailing
space. -/
theorem claim_C8_counterexample :
    PairingToString ((("a ", 0) : Person), ("b", 1)) ≠ specKeyNoTrim (("a ", 0), ("b", 1)) ∧
      PairingToString ((("a ", 0) : Person), ("b", 1)) = "0a-1b" ∧
      specKeyNoTrim ((("a ", 0) : Person), ("b", 1)) = "0a -1b" :=
  ⟨by decide, by decide, by decide⟩

/-- Claim C9 (amended): the human-readable output has exactly one line per
pairing, in the canonical sorted order of pairings; each line is the plain
`name gives to name` form when no two listed people share a name after
lowercasing and trimming surrounding whitespace, and the grouped form when
some two do. -/
theorem claim_C9_theorem (groups : List (List String)) (ps : List Pairing) :
    ∃ qs : List Pairing, qs.Perm ps ∧ List.Sorted pairingLe qs ∧
      printLinesOf groups ps =
        qs.map (fun p => if specSharesNormalizedName groups then groupLine p else plainLine p) ∧
      (printLinesOf groups ps).length = ps.length := by
  refine ⟨sortedPairings ps, List.perm_insertionSort _ _, List.sorted_insertionSort _ _, ?_, ?_⟩
  · unfold printLinesOf
    apply List.map_congr_left
    intro p _
    by_cases h : specSharesNormalizedName groups
    · rw [if_pos ((haveDuplicateNames_iff groups).mpr h), if_pos h]
    · rw [if_neg (fun hb => h ((haveDuplicateNames_iff groups).mp hb)), if_neg h]
  · unfold printLinesOf
    rw [List.length_map]
    exact (List.perm_insertionSort pairingLe ps).length_eq

/-- Claim C9 as stated is false: with names `"Bob"` and `"Bob "` no two people
share a case-insensitive name, yet the code's lower-and-strip normalization
collides, so the output uses the grouped format instead of the plain one. -/
theorem claim_C9_counterexample :
    ¬ specSharesCaseInsensitiveName [["Bob"], ["Bob "]] ∧
      printLinesOf [["Bob"], ["Bob "]] [((("Bob", 0) : Person), ("Bob ", 1))] =
        ["Bob (0) gives to Bob  (1)"] ∧
      printLinesOf [["Bob"], ["Bob "]] [((("Bob", 0) : Person), ("Bob ", 1))] ≠
        [plainLine (("Bob", 0), ("Bob ", 1))] :=
  ⟨by decide, by decide, by decide⟩

/-- Claim C10 (amended): pairings whose group indices agree and whose names
agree after the code's normalization applied in its order — lowercase, then
strip surrounding whitespace, then remove double quotes — get identical
canonical keys; in particular a name padded with surrounding whitespace
collides with the unpadded name in history-key comparisons, on either side of
the pairing.  The order matters: a quote character adjacent to whitespace
shields it from the strip, so names differing only by a quote character need
not collide. -/
theorem claim_C10_theorem :
    (∀ g1 n1 g2 n2 n3 n4, normalizeName n1 = normalizeName n3 →
        normalizeName n2 = normalizeName n4 →
        PairingToString ((n1, g1), (n2, g2)) = PairingToString ((n3, g1), (n4, g2))) ∧
      (∀ n g1 rn g2,
        PairingToString ((" " ++ n ++ " ", g1), (rn, g2)) =
          PairingToString ((n, g1), (rn, g2)) ∧
        PairingToString ((rn, g2), (" " ++ n ++ " ", g1)) =
          PairingToString ((rn, g2), (n, g1))) := by
  constructor
  · intro g1 n1 g2 n2 n3 n4 h13 h24
    unfold PairingToString
    dsimp only
    rw [h13, h24]
  · intro n g1 rn g2
    constructor
    · unfold PairingToString
      dsimp only
      rw [normalizeName_pad]
    · unfold PairingToString
      dsimp only
      rw [normalizeName_pad]

theorem claim_C10_witness :
    normalizeName "BOB" = normalizeName " bob " ∧
      PairingToString (("BOB", 0), ("Carol", 1)) =
        PairingToString ((" bob ", 0), ("Carol", 1)) :=
  ⟨by decide, claim_C10_theorem.1 0 "BOB" 1 "Carol" " bob " "Carol" (by decide) (by decide)⟩

/-- Claim C10 as stated is false: the names `" a` (quote, space, a) and ` a`
differ only by one double-quote character, yet because the code strips before
removing quotes, the quote shields the space from the strip and the two names
produce different canonical keys. -/
theorem claim_C10_counterexample :
    removeQuotes ⟨[quoteChar, ' ', 'a']⟩ = " a" ∧
      PairingToString ((⟨[quoteChar, ' ', 'a']⟩, 0), ("b", 1)) = "0 a-1b" ∧
      PairingToString ((" a", 0), ("b", 1)) = "0a-1b" ∧
      PairingToString ((⟨[quoteChar, ' ', 'a']⟩, 0), ("b", 1)) ≠
        PairingToString ((" a", 0), ("b", 1)) :=
  ⟨by decide, by decide, by decide, by decide⟩
